import Mathlib

/-!
Verification of the btree operations layer of `src/btree/operations.hpp`
(single-key location resolution and mutation for a copy-on-write B-tree).

The header under `src/` declares the data types (`superblock_t`,
`real_superblock_t`, `virtual_superblock_t`, `keyvalue_location_t`,
`value_txn_t`) and gives inline bodies for the virtual superblock and the
`keyvalue_location_t` default constructor; those definitions are embedded
directly from the source.  The traversal and mutation bodies live in
`btree/operations.tcc`, which is not part of the source tree here, so those
operations are modelled from the specification (sections 4.3-4.5), as noted
on each definition.
-/

namespace BtreeOps

/-- Block identifiers, as in `block_id_t` (an unsigned 32-bit integer). -/
abbrev block_id_t := Nat

/-- `NULL_BLOCK_ID` is the all-ones sentinel of the 32-bit block id type. -/
def NULL_BLOCK_ID : block_id_t := 4294967295

/-- Keys of the btree (`btree_key_t`), abstracted to naturals. -/
abbrev key_t := Nat

/-- Values stored in leaves, as byte sequences (the spec's round-trip claim
is byte-for-byte). -/
abbrev value_t := List Nat

/-- Replication timestamps (`repli_timestamp_t`), abstracted to naturals. -/
abbrev repli_timestamp_t := Nat

/-- `buf_lock_t`: a scoped hold on one cache block; `held = none` is the
default-constructed, unheld lock. -/
structure buf_lock_t where
  held : Option block_id_t
deriving DecidableEq, Repr

/-- The default-constructed (empty, unheld) `buf_lock_t`. -/
def buf_lock_t.empty : buf_lock_t := ⟨none⟩

/-- `buf_lock_t::swap`: exchange the contents of two locks.  Returns the pair
(new self, new other). -/
def buf_lock_t.swap (self other : buf_lock_t) : buf_lock_t × buf_lock_t :=
  (other, self)

/-- `virtual_superblock_t` (operations.hpp, lines 59-81): an in-memory
superblock replacement for nested btrees, holding only a root block id. -/
structure virtual_superblock_t where
  root_block_id_ : block_id_t
deriving DecidableEq, Repr

/-- The constructor `virtual_superblock_t(block_id_t root_block_id = NULL_BLOCK_ID)`;
`arg = none` models calling it with the default argument. -/
def virtual_superblock_t.construct (arg : Option block_id_t) : virtual_superblock_t :=
  ⟨arg.getD NULL_BLOCK_ID⟩

/-- `virtual_superblock_t::release`: `void release() { }` — a no-op. -/
def virtual_superblock_t.release (sb : virtual_superblock_t) : virtual_superblock_t :=
  sb

/-- `virtual_superblock_t::swap_buf`: constructs an empty `buf_lock_t tmp`
and runs `tmp.swap(swapee)`; the caller's slot receives the empty lock.
Returns the new contents of `swapee`. -/
def virtual_superblock_t.swap_buf (_sb : virtual_superblock_t) (swapee : buf_lock_t) :
    buf_lock_t :=
  let tmp := buf_lock_t.empty
  let p := buf_lock_t.swap tmp swapee
  p.2

/-- `virtual_superblock_t::get_root_block_id`. -/
def virtual_superblock_t.get_root_block_id (sb : virtual_superblock_t) : block_id_t :=
  sb.root_block_id_

/-- `virtual_superblock_t::set_root_block_id`. -/
def virtual_superblock_t.set_root_block_id (sb : virtual_superblock_t)
    (new_root_block : block_id_t) : virtual_superblock_t :=
  { sb with root_block_id_ := new_root_block }

/-- `virtual_superblock_t::get_delete_queue_block`: `return NULL_BLOCK_ID;`. -/
def virtual_superblock_t.get_delete_queue_block (_sb : virtual_superblock_t) : block_id_t :=
  NULL_BLOCK_ID

/-- `real_superblock_t` (operations.hpp, lines 34-46): a superblock backed by
a locked on-disk block, held in the member `sb_buf_`. -/
structure real_superblock_t where
  sb_buf_ : buf_lock_t
deriving DecidableEq, Repr

/-- Modelled from the spec: the body of `real_superblock_t::release` is in
`operations.tcc`, which is not in the source tree.  Per the spec (section 4.1),
release gives up the lock if any is held and is a no-op if none is held. -/
def real_superblock_t.release (sb : real_superblock_t) : real_superblock_t :=
  { sb with sb_buf_ := buf_lock_t.empty }

/-- `keyvalue_location_t<Value>` (operations.hpp, lines 99-120): the result of
descending to a key.  `last_buf` is the parent buf of `buf` (if `buf` is not
the root), `buf` owns the leaf node containing the value, and `value` is a
copy of the value if the key/value pair was found, otherwise NULL (`none`). -/
structure keyvalue_location_t (Value : Type) where
  last_buf : buf_lock_t
  buf : buf_lock_t
  there_originally_was_value : Bool
  value : Option Value
deriving DecidableEq, Repr

/-- The default constructor
`keyvalue_location_t() : there_originally_was_value(false) { }`: the buf locks
default-construct to unheld and the `scoped_malloc` value pointer to NULL. -/
def keyvalue_location_t.construct (Value : Type) : keyvalue_location_t Value :=
  { last_buf := buf_lock_t.empty
    buf := buf_lock_t.empty
    there_originally_was_value := false
    value := none }

/-! ### The tree of blocks

The node layout is an external collaborator (spec section 1): internal nodes
map a key to a child block id, leaf nodes look up / insert / delete a key.
We model a node accordingly and the block store as an association list from
block id to node (later writes shadow earlier entries). -/

/-- A tree node: an internal node holds children as (separator key, child id)
pairs; a leaf holds (key, value) entries. -/
inductive node
  | internal (children : List (key_t × block_id_t))
  | leaf (entries : List (key_t × value_t))
deriving DecidableEq, Repr

/-- The block store: block id to node content, first match wins. -/
abbrev store_t := List (block_id_t × node)

/-- Look a block up in the store (first matching entry). -/
def storeLookup : store_t → block_id_t → Option node
  | [], _ => none
  | (b0, n0) :: st, b => if b0 = b then some n0 else storeLookup st b

/-- Write a block into the store (shadows any earlier entry). -/
def storeWrite (st : store_t) (b : block_id_t) (n : node) : store_t :=
  (b, n) :: st

/-- The child ids referenced by a node. -/
def childIds : node → List block_id_t
  | .internal ch => ch.map Prod.snd
  | .leaf _ => []

/-- Basic node well-formedness: an internal node has at least one child (a
B-tree internal node always carries children; an empty internal node would
have no covering child for any key). -/
def nodeWF : node → Bool
  | .internal ch => decide (ch ≠ [])
  | .leaf _ => true

/-- Modelled from the spec: child choice inside an internal node (section 4.3).
The child chosen is the one whose key range contains the target key: the first
child whose separator bounds the key, with the last child covering the
remainder; exactly one child covers any key. -/
def chooseChild : List (key_t × block_id_t) → key_t → block_id_t
  | [], _ => NULL_BLOCK_ID
  | [(_, c)], _ => c
  | (s, c) :: e :: rest, k => if k ≤ s then c else chooseChild (e :: rest) k

/-- Modelled from the spec: patching the parent's child pointer for the child
that covers `k` (section 4.5, copy-on-write pointer patch). -/
def patchChild : List (key_t × block_id_t) → key_t → block_id_t →
    List (key_t × block_id_t)
  | [], _, _ => []
  | [(s, _)], _, n => [(s, n)]
  | (s, c) :: e :: rest, k, n =>
      if k ≤ s then (s, n) :: e :: rest else (s, c) :: patchChild (e :: rest) k n

/-- Leaf lookup: the value stored for `k`, if any. -/
def lookupEntry : List (key_t × value_t) → key_t → Option value_t
  | [], _ => none
  | (k0, v0) :: es, k => if k0 = k then some v0 else lookupEntry es k

/-- Leaf insert/update of `k ↦ v`. -/
def insertEntry : List (key_t × value_t) → key_t → value_t → List (key_t × value_t)
  | [], k, v => [(k, v)]
  | (k0, v0) :: es, k, v =>
      if k0 = k then (k, v) :: es else (k0, v0) :: insertEntry es k v

/-- Leaf deletion of `k`. -/
def deleteEntry : List (key_t × value_t) → key_t → List (key_t × value_t)
  | [], _ => []
  | (k0, v0) :: es, k => if k0 = k then es else (k0, v0) :: deleteEntry es k

/-- Modelled from the spec: the shared traversal core of
`find_keyvalue_location_for_read` / `find_keyvalue_location_for_write`
(section 4.3), whose bodies are in `operations.tcc` (not in the source tree).
Descends from `cur` (with `parent` the internal node that chose `cur`, if
any), at each internal node choosing the child covering `k`, until a leaf is
reached; returns the leaf's block id, the parent's block id, and the leaf's
entries.  `fuel` bounds the depth. -/
def descendCore (store : store_t) (k : key_t) :
    Nat → block_id_t → Option block_id_t →
    Option (block_id_t × Option block_id_t × List (key_t × value_t))
  | 0, _, _ => none
  | fuel + 1, cur, parent =>
    match storeLookup store cur with
    | some (.leaf es) => some (cur, parent, es)
    | some (.internal ch) => descendCore store k fuel (chooseChild ch k) (some cur)
    | none => none

/-- Modelled from the spec: `find_keyvalue_location_for_read` (section 4.3).
Descends to the leaf; at the leaf looks the key up; if found, copies the
value out and records `there_originally_was_value = true`, otherwise records
`false` with an absent value.  The parent lock is dropped once the leaf is
reached (read mode never rewrites parent pointers), so `last_buf` is empty. -/
def find_keyvalue_location_for_read (store : store_t) (fuel : Nat)
    (root : block_id_t) (k : key_t) : Option (keyvalue_location_t value_t) :=
  (descendCore store k fuel root none).map fun r =>
    { last_buf := buf_lock_t.empty
      buf := ⟨some r.1⟩
      there_originally_was_value := (lookupEntry r.2.2 k).isSome
      value := lookupEntry r.2.2 k }

/-- Modelled from the spec: `find_keyvalue_location_for_write` (section 4.3).
Identical descent, but the parent's lock is retained as the location's
`last_buf`, because a later mutation may need to copy-on-write the leaf and
patch the parent's child pointer.  The timestamp is threaded through
unchanged. -/
def find_keyvalue_location_for_write (store : store_t) (fuel : Nat)
    (root : block_id_t) (k : key_t) (_tstamp : repli_timestamp_t) :
    Option (keyvalue_location_t value_t) :=
  (descendCore store k fuel root none).map fun r =>
    { last_buf := ⟨r.2.1⟩
      buf := ⟨some r.1⟩
      there_originally_was_value := (lookupEntry r.2.2 k).isSome
      value := lookupEntry r.2.2 k }

/-- The result of change application: the updated block store and the
(possibly changed) root block id held by the superblock. -/
structure apply_result where
  store : store_t
  root : block_id_t
deriving DecidableEq, Repr

/-- Modelled from the spec: the leaf entries after change application
(section 4.5).  If the final value is present, the key/value pair is written
into the leaf (insert or update); if absent, the key is removed. -/
def finalEntries (vOpt : Option value_t) (es : List (key_t × value_t))
    (k : key_t) : List (key_t × value_t) :=
  match vOpt with
  | some v => insertEntry es k v
  | none => deleteEntry es k

/-- Modelled from the spec: `apply_keyvalue_change` (section 4.5), whose body
is in `operations.tcc` (not in the source tree).  Given a resolved write-mode
location whose `value` field holds the final (possibly absent) value:
deletion removes the key from the leaf, insertion/update writes it into the
leaf.  Copy-on-write policy: if the cache says the leaf block must be cloned
before mutation (`mustClone`), the mutation occurs on the clone (written at
the fresh id `freshId`), and the clone's id is patched into the parent
(`last_buf`) child pointer — or, if the leaf is the root (`last_buf` empty),
into the superblock's root id directly. -/
def apply_keyvalue_change (store : store_t) (root : block_id_t)
    (loc : keyvalue_location_t value_t) (k : key_t)
    (mustClone : block_id_t → Bool) (freshId : block_id_t)
    (_timestamp : repli_timestamp_t) : apply_result :=
  match loc.buf.held with
  | none => ⟨store, root⟩
  | some leafId =>
    match storeLookup store leafId with
    | some (.leaf es) =>
      let es' := finalEntries loc.value es k
      if mustClone leafId then
        let store1 := storeWrite store freshId (.leaf es')
        match loc.last_buf.held with
        | some pid =>
          match storeLookup store1 pid with
          | some (.internal ch) =>
              ⟨storeWrite store1 pid (.internal (patchChild ch k freshId)), root⟩
          | _ => ⟨store1, root⟩
        | none => ⟨store1, freshId⟩
      else ⟨storeWrite store leafId (.leaf es'), root⟩
    | _ => ⟨store, root⟩

/-! ### Lock coupling during descent

The descent's locking behaviour is modelled as the event trace it produces:
acquire the root child, then hand-over-hand at every internal node (acquire
the chosen child, release the current node). -/

/-- A block-lock event during descent. -/
inductive lockEvent
  | acq (b : block_id_t)
  | rel (b : block_id_t)
deriving DecidableEq, Repr

/-- Modelled from the spec: the lock events emitted while descending from
`cur` (which the operation already holds).  At an internal node, the chosen
child's lock is acquired before the current node's lock is released (lock
coupling, section 5); at a leaf the descent stops, still holding the leaf. -/
def descentEvents (store : store_t) (k : key_t) :
    Nat → block_id_t → List lockEvent
  | 0, _ => []
  | fuel + 1, cur =>
    match storeLookup store cur with
    | some (.internal ch) =>
      let c := chooseChild ch k
      .acq c :: .rel cur :: descentEvents store k fuel c
    | _ => []

/-- Modelled from the spec: the full tree-node lock trace of one descent by
`find_keyvalue_location_for_read` / `find_keyvalue_location_for_write`: the
root child is acquired first (at which point the superblock lock is
released), then the hand-over-hand events follow. -/
def descentTrace (store : store_t) (k : key_t) (fuel : Nat)
    (root : block_id_t) : List lockEvent :=
  .acq root :: descentEvents store k fuel root

/-- The multiset (as a list) of locks held after processing a trace, starting
from the locks `hs`. -/
def heldAfterFrom : List block_id_t → List lockEvent → List block_id_t
  | hs, [] => hs
  | hs, .acq b :: tr => heldAfterFrom (b :: hs) tr
  | hs, .rel b :: tr => heldAfterFrom (hs.erase b) tr

/-- The locks held after processing a trace, starting from none held. -/
def heldAfter (tr : List lockEvent) : List block_id_t :=
  heldAfterFrom [] tr

/-- Checks that every release event in a trace immediately follows an acquire
event (a child's lock is acquired before its parent's lock is released);
`prev` is the event just before the list, if any. -/
def relFollowsAcq : Option lockEvent → List lockEvent → Bool
  | _, [] => true
  | prev, .rel b :: tr =>
    (match prev with
     | some (.acq _) => true
     | _ => false) && relFollowsAcq (some (.rel b)) tr
  | _, .acq c :: tr => relFollowsAcq (some (.acq c)) tr

/-! ### Reachability of blocks from the root -/

/-- Whether `target` is reachable from `b` by following child pointers,
within `fuel` steps. -/
def reachableb (st : store_t) (target : block_id_t) :
    Nat → block_id_t → Bool
  | 0, _ => false
  | fuel + 1, b =>
    b = target ||
      (match storeLookup st b with
       | some (.internal ch) =>
           (ch.map Prod.snd).any fun c => reachableb st target fuel c
       | _ => false)

/-! ### The scoped value mutation transaction (`value_txn_t`)

`value_txn_t`'s constructor and destructor bodies are in `operations.tcc`
(not in the source tree); the model below follows the spec (section 4.4):
construction exposes the location's value copy for editing, and destruction
— which C++ scope semantics run exactly once on every exit path of the
enclosing scope, be it normal completion, an early return, or error
unwinding — applies the final state of the value via `apply_keyvalue_change`. -/

/-- An edit the caller performs on the exposed value: mutate it in place,
replace it with a new value (insert), or clear it (delete). -/
inductive txnEdit
  | mutate (f : value_t → value_t)
  | replace (v : value_t)
  | clear

/-- The effect of one edit on the exposed (optional) value. -/
def applyEdit : Option value_t → txnEdit → Option value_t
  | v, .mutate f => v.map f
  | _, .replace v => some v
  | _, .clear => none

/-- One statement of the caller's scope body: perform an edit, return early,
or raise an error that unwinds the scope. -/
inductive scopeAction
  | editAction (e : txnEdit)
  | returnEarly
  | raiseError

/-- The edits that actually execute: the body runs until its first early
return or error, after which no further statement executes. -/
def performedEdits : List scopeAction → List txnEdit
  | [] => []
  | .editAction e :: rest => e :: performedEdits rest
  | .returnEarly :: _ => []
  | .raiseError :: _ => []

/-- A runtime event of the scope holding a `value_txn_t`. -/
inductive scopeEvent
  | constructTxn
  | editValue (e : txnEdit)
  | destroyTxn

/-- Modelled from the spec: the event sequence of a scope that constructs a
`value_txn_t`, runs its body, and exits.  C++ destructor semantics guarantee
the destructor event occurs exactly once on every exit path — after the whole
body on normal completion, and right at the exit point on an early return or
an unwinding error — so the trace always ends with a single `destroyTxn`. -/
def valueTxnScopeEvents (body : List scopeAction) : List scopeEvent :=
  scopeEvent.constructTxn ::
    (performedEdits body).map scopeEvent.editValue ++ [scopeEvent.destroyTxn]

/-- The running state of a `value_txn_t` scope: the transaction's exposed
value, the number of times change application has been invoked, and the
store/root as last written by change application. -/
structure value_txn_run_t where
  txn_value : Option value_t
  applyCount : Nat
  result : apply_result

/-- Modelled from the spec: how each scope event acts on the running state.
Construction exposes the value; an edit rewrites the exposed value; the
destructor invokes `apply_keyvalue_change` on the final state of the value. -/
def valueTxnStep (k : key_t) (loc : keyvalue_location_t value_t)
    (mustClone : block_id_t → Bool) (freshId : block_id_t)
    (tstamp : repli_timestamp_t) (st : value_txn_run_t) :
    scopeEvent → value_txn_run_t
  | .constructTxn => st
  | .editValue e => { st with txn_value := applyEdit st.txn_value e }
  | .destroyTxn =>
    { st with
        applyCount := st.applyCount + 1
        result := apply_keyvalue_change st.result.store st.result.root
          { loc with value := st.txn_value } k mustClone freshId tstamp }

/-- Modelled from the spec: run a whole `value_txn_t` scope over `body`,
starting from the resolved location `loc` (whose value copy the transaction
exposes) and the store/root pair the location was resolved against. -/
def runValueTxnScope (store : store_t) (root : block_id_t)
    (loc : keyvalue_location_t value_t) (k : key_t)
    (mustClone : block_id_t → Bool) (freshId : block_id_t)
    (tstamp : repli_timestamp_t) (body : List scopeAction) : value_txn_run_t :=
  (valueTxnScopeEvents body).foldl
    (valueTxnStep k loc mustClone freshId tstamp)
    { txn_value := loc.value, applyCount := 0, result := ⟨store, root⟩ }

/-! ### A small concrete tree, used to evaluate the definitions -/

/-- A two-level tree: block 1 is the root internal node with children 2 and 3,
block 2 is a leaf holding key 5, block 3 is a leaf holding key 15. -/
def demoStore : store_t :=
  [(1, node.internal [(10, 2), (20, 3)]),
   (2, node.leaf [(5, [7, 7])]),
   (3, node.leaf [(15, [9])])]

/-! ### Lemmas about the traversal core -/

/-- The block the descent ends on is a leaf holding the returned entries. -/
theorem descend_leaf {store : store_t} {k : key_t} :
    ∀ {fuel : Nat} {cur : block_id_t} {par : Option block_id_t}
      {l : block_id_t} {p : Option block_id_t} {es : List (key_t × value_t)},
      descendCore store k fuel cur par = some (l, p, es) →
      storeLookup store l = some (node.leaf es) := by
  intro fuel
  induction fuel with
  | zero => intro cur par l p es h; simp [descendCore] at h
  | succ n ih =>
    intro cur par l p es h
    simp only [descendCore] at h
    split at h
    next es0 heq =>
      simp only [Option.some.injEq, Prod.mk.injEq] at h
      obtain ⟨rfl, -, rfl⟩ := h
      exact heq
    next ch heq => exact ih h
    next heq => exact absurd h (by simp)

/-- Looking up a key right after inserting it yields the inserted value. -/
theorem lookupEntry_insertEntry (es : List (key_t × value_t)) (k : key_t)
    (v : value_t) : lookupEntry (insertEntry es k v) k = some v := by
  induction es with
  | nil => simp [insertEntry, lookupEntry]
  | cons e es ih =>
    obtain ⟨k0, v0⟩ := e
    by_cases hk : k0 = k
    · subst hk
      simp [insertEntry, lookupEntry]
    · simp [insertEntry, lookupEntry, hk, ih]

/-- Rewriting the leaf the descent ends on (with any other entry list) leaves
the descent path unchanged: the descent in the updated store reaches the same
leaf block with the same parent and sees the new entries. -/
theorem descend_update {store : store_t} {k : key_t}
    {es' : List (key_t × value_t)} :
    ∀ {fuel : Nat} {cur : block_id_t} {par : Option block_id_t}
      {l : block_id_t} {p : Option block_id_t} {es : List (key_t × value_t)},
      descendCore store k fuel cur par = some (l, p, es) →
      descendCore (storeWrite store l (node.leaf es')) k fuel cur par =
        some (l, p, es') := by
  intro fuel
  induction fuel with
  | zero => intro cur par l p es h; simp [descendCore] at h
  | succ n ih =>
    intro cur par l p es h
    have hleaf := descend_leaf h
    simp only [descendCore] at h ⊢
    split at h
    next es0 heq =>
      simp only [Option.some.injEq, Prod.mk.injEq] at h
      obtain ⟨rfl, rfl, rfl⟩ := h
      simp [storeWrite, storeLookup]
    next ch heq =>
      have hne : l ≠ cur := by
        intro hcontra
        rw [hcontra] at hleaf
        rw [heq] at hleaf
        exact absurd hleaf (by simp)
      have hlk : storeLookup (storeWrite store l (node.leaf es')) cur =
          some (node.internal ch) := by
        simp [storeWrite, storeLookup, hne, heq]
      rw [hlk]
      exact ih h
    next heq => exact absurd h (by simp)

/-- If the descent starting with no parent returns a location that has a
parent, the starting block is an internal node. -/
theorem descend_root_internal {store : store_t} {k : key_t} {fuel : Nat}
    {cur : block_id_t} {l pid : block_id_t} {es : List (key_t × value_t)}
    (h : descendCore store k fuel cur none = some (l, some pid, es)) :
    ∃ ch, storeLookup store cur = some (node.internal ch) := by
  cases fuel with
  | zero => simp [descendCore] at h
  | succ n =>
    simp only [descendCore] at h
    split at h
    next es0 heq =>
      simp only [Option.some.injEq, Prod.mk.injEq] at h
      exact absurd h.2.1 (by simp)
    next ch heq => exact ⟨ch, heq⟩
    next heq => exact absurd h (by simp)

/-- The parent block returned by the descent is an internal node whose child
choice for `k` is the returned leaf — provided the same already holds of the
incoming `par` argument (vacuously true when `par = none`). -/
theorem descend_parent {store : store_t} {k : key_t} :
    ∀ {fuel : Nat} {cur : block_id_t} {par : Option block_id_t}
      {l pid : block_id_t} {es : List (key_t × value_t)},
      (∀ q, par = some q →
        ∃ ch, storeLookup store q = some (node.internal ch) ∧
          chooseChild ch k = cur) →
      descendCore store k fuel cur par = some (l, some pid, es) →
      ∃ ch, storeLookup store pid = some (node.internal ch) ∧
        chooseChild ch k = l := by
  intro fuel
  induction fuel with
  | zero => intro cur par l pid es hpre h; simp [descendCore] at h
  | succ n ih =>
    intro cur par l pid es hpre h
    simp only [descendCore] at h
    split at h
    next es0 heq =>
      simp only [Option.some.injEq, Prod.mk.injEq] at h
      obtain ⟨rfl, hp, rfl⟩ := h
      exact hpre pid hp
    next ch heq =>
      refine ih ?_ h
      intro q hq
      obtain rfl : cur = q := by injection hq
      exact ⟨ch, heq, rfl⟩
    next heq => exact absurd h (by simp)

/-! ### Lemmas about child choice and pointer patching -/

/-- Number of occurrences of a block id in a list of ids. -/
def countOcc (b : block_id_t) : List block_id_t → Nat
  | [] => 0
  | c :: cs => (if c = b then 1 else 0) + countOcc b cs

/-- An id occurs zero times exactly when it is not in the list. -/
theorem countOcc_eq_zero {b : block_id_t} :
    ∀ {l : List block_id_t}, countOcc b l = 0 ↔ b ∉ l := by
  intro l
  induction l with
  | nil => simp [countOcc]
  | cons c cs ih =>
    by_cases hc : c = b
    · subst hc
      simp [countOcc]
    · simp [countOcc, hc, ih, Ne.symm hc]

/-- The chosen child of a nonempty children list is one of its child ids. -/
theorem chooseChild_mem :
    ∀ (ch : List (key_t × block_id_t)) (k : key_t),
      ch ≠ [] → chooseChild ch k ∈ ch.map Prod.snd := by
  intro ch
  induction ch with
  | nil => intro k h; exact absurd rfl h
  | cons e tl ih =>
    intro k _
    obtain ⟨s, c⟩ := e
    cases tl with
    | nil => simp [chooseChild]
    | cons e2 tl2 =>
      by_cases hks : k ≤ s
      · simp [chooseChild, hks]
      · simp only [chooseChild, hks, if_false, List.map_cons, List.mem_cons]
        exact Or.inr (by simpa using ih k (by simp))

/-- Patching a nonempty children list yields a nonempty list. -/
theorem patchChild_ne_nil {k : key_t} {n : block_id_t} :
    ∀ {ch : List (key_t × block_id_t)}, ch ≠ [] → patchChild ch k n ≠ [] := by
  intro ch h
  match ch with
  | [(s, c)] => simp [patchChild]
  | (s, c) :: e2 :: tl2 =>
    by_cases hks : k ≤ s <;> simp [patchChild, hks]

/-- Patching the parent's children for the covering child of `k`: when the
old child id occurs exactly once and is the one chosen for `k`, the patched
list chooses the fresh id for `k` and no longer mentions the old id. -/
theorem patchChild_spec {oldId freshId : block_id_t} (hne : freshId ≠ oldId) :
    ∀ (ch : List (key_t × block_id_t)) (k : key_t),
      countOcc oldId (ch.map Prod.snd) = 1 →
      chooseChild ch k = oldId →
      chooseChild (patchChild ch k freshId) k = freshId ∧
        oldId ∉ (patchChild ch k freshId).map Prod.snd := by
  intro ch
  induction ch with
  | nil => intro k hcount _; simp [countOcc] at hcount
  | cons e tl ih =>
    intro k hcount hchoose
    obtain ⟨s, c⟩ := e
    cases tl with
    | nil =>
      refine ⟨by simp [patchChild, chooseChild], ?_⟩
      simp [patchChild, Ne.symm hne]
    | cons e2 tl2 =>
      by_cases hks : k ≤ s
      · -- the head child is the one chosen and patched
        have hc : c = oldId := by simpa [chooseChild, hks] using hchoose
        subst hc
        have htl : countOcc c ((e2 :: tl2).map Prod.snd) = 0 := by
          simpa [countOcc] using hcount
        refine ⟨by simp [patchChild, hks, chooseChild], ?_⟩
        simp only [patchChild, hks, if_true, List.map_cons, List.mem_cons]
        push_neg
        refine ⟨Ne.symm hne, ?_⟩
        have := countOcc_eq_zero.mp htl
        simpa using this
      · -- the chosen child lies in the tail; the head is untouched
        have hchoose' : chooseChild (e2 :: tl2) k = oldId := by
          simpa [chooseChild, hks] using hchoose
        have hcne : c ≠ oldId := by
          intro hc
          subst hc
          have htl : countOcc c ((e2 :: tl2).map Prod.snd) = 0 := by
            simpa [countOcc] using hcount
          have hmem := chooseChild_mem (e2 :: tl2) k (by simp)
          rw [hchoose'] at hmem
          exact countOcc_eq_zero.mp htl hmem
        have hcount' : countOcc oldId ((e2 :: tl2).map Prod.snd) = 1 := by
          simpa [countOcc, hcne] using hcount
        obtain ⟨h1, h2⟩ := ih k hcount' hchoose'
        have hnn : patchChild (e2 :: tl2) k freshId ≠ [] :=
          patchChild_ne_nil (by simp)
        refine ⟨?_, ?_⟩
        · rcases hpp : patchChild (e2 :: tl2) k freshId with _ | ⟨x, xs⟩
          · exact absurd hpp hnn
          · rw [hpp] at h1
            simpa [patchChild, hks, hpp, chooseChild] using h1
        · simp only [patchChild, hks, if_false, List.map_cons, List.mem_cons]
          push_neg
          exact ⟨Ne.symm hcne, by simpa using h2⟩

/-- Patching the covering child of `k` in a nonempty children list makes the
fresh id the chosen child for `k`: `patchChild` replaces exactly the entry
`chooseChild` selects, and leaves the separators unchanged. -/
theorem chooseChild_patchChild :
    ∀ (ch : List (key_t × block_id_t)) (k : key_t) (n : block_id_t),
      ch ≠ [] → chooseChild (patchChild ch k n) k = n := by
  intro ch
  induction ch with
  | nil => intro k n h; exact absurd rfl h
  | cons e tl ih =>
    intro k n _
    obtain ⟨s, c⟩ := e
    cases tl with
    | nil => simp [patchChild, chooseChild]
    | cons e2 tl2 =>
      by_cases hks : k ≤ s
      · simp [patchChild, hks, chooseChild]
      · have hnn : patchChild (e2 :: tl2) k n ≠ [] := patchChild_ne_nil (by simp)
        rcases hpp : patchChild (e2 :: tl2) k n with - | ⟨x, xs⟩
        · exact absurd hpp hnn
        · have hch := ih k n (by simp)
          rw [hpp] at hch
          simpa [patchChild, hks, hpp, chooseChild] using hch

/-! ### Lemmas about the lock trace -/

/-- Along the hand-over-hand portion of the descent, starting while holding
exactly the current node's lock, every intermediate state holds one or two
locks. -/
theorem heldAfterFrom_descentEvents {store : store_t} {k : key_t} :
    ∀ (fuel : Nat) (cur : block_id_t) (p : List lockEvent),
      p <+: descentEvents store k fuel cur →
      1 ≤ (heldAfterFrom [cur] p).length ∧ (heldAfterFrom [cur] p).length ≤ 2 := by
  intro fuel
  induction fuel with
  | zero =>
    intro cur p hp
    have hnil : p = [] := List.prefix_nil.mp (by simpa [descentEvents] using hp)
    subst hnil
    simp [heldAfterFrom]
  | succ n ih =>
    intro cur p hp
    rcases heq : storeLookup store cur with - | nd
    · have hnil : p = [] := List.prefix_nil.mp (by simpa [descentEvents, heq] using hp)
      subst hnil
      simp [heldAfterFrom]
    · cases nd with
      | leaf es =>
        have hnil : p = [] :=
          List.prefix_nil.mp (by simpa [descentEvents, heq] using hp)
        subst hnil
        simp [heldAfterFrom]
      | internal ch =>
        rw [descentEvents] at hp
        rw [heq] at hp
        cases p with
        | nil => simp [heldAfterFrom]
        | cons e p1 =>
          obtain ⟨rfl, hp1⟩ := List.cons_prefix_cons.mp hp
          cases p1 with
          | nil => simp [heldAfterFrom]
          | cons e2 p2 =>
            obtain ⟨rfl, hp2⟩ := List.cons_prefix_cons.mp hp1
            have herase :
                [chooseChild ch k, cur].erase cur = [chooseChild ch k] := by
              by_cases hc : chooseChild ch k = cur
              · simp [hc]
              · simp [List.erase_cons, hc]
            simpa [heldAfterFrom, herase] using ih (chooseChild ch k) p2 hp2

/-- In every descent event list, each release immediately follows an acquire,
whatever event preceded the list. -/
theorem relFollowsAcq_descentEvents {store : store_t} {k : key_t} :
    ∀ (fuel : Nat) (cur : block_id_t) (prev : Option lockEvent),
      relFollowsAcq prev (descentEvents store k fuel cur) = true := by
  intro fuel
  induction fuel with
  | zero => intro cur prev; simp [descentEvents, relFollowsAcq]
  | succ n ih =>
    intro cur prev
    rcases heq : storeLookup store cur with - | nd
    · simp [descentEvents, heq, relFollowsAcq]
    · cases nd with
      | leaf es => simp [descentEvents, heq, relFollowsAcq]
      | internal ch =>
        rw [descentEvents, heq]
        simp only [relFollowsAcq, Bool.true_and]
        exact ih (chooseChild ch k) _

/-! ### Lemmas about reachability -/

/-- If no block of the store references `oldId` as a child, then `oldId` is
unreachable from any other block. -/
theorem noref_unreachable {st : store_t} {oldId : block_id_t}
    (hnr : ∀ b n, storeLookup st b = some n → oldId ∉ childIds n) :
    ∀ (fuel : Nat) (b : block_id_t), b ≠ oldId →
      reachableb st oldId fuel b = false := by
  intro fuel
  induction fuel with
  | zero => intro b hb; simp [reachableb]
  | succ n ih =>
    intro b hb
    simp only [reachableb, Bool.or_eq_false_iff]
    refine ⟨by simpa using hb, ?_⟩
    split
    next ch heq =>
      rw [List.any_eq_false]
      intro c hc
      have hcne : c ≠ oldId := by
        intro hceq
        exact hnr b _ heq (by simpa [childIds, hceq] using hc)
      simp [ih c hcne]
    next => rfl

/-- A successful store lookup comes from an entry of the store. -/
theorem storeLookup_mem :
    ∀ {st : store_t} {b : block_id_t} {n : node},
      storeLookup st b = some n → (b, n) ∈ st := by
  intro st
  induction st with
  | nil => intro b n h; simp [storeLookup] at h
  | cons e st ih =>
    intro b n h
    obtain ⟨b0, n0⟩ := e
    by_cases hb : b0 = b
    · subst hb
      simp only [storeLookup, if_true] at h
      obtain rfl : n0 = n := by injection h
      exact List.mem_cons_self _ _
    · simp only [storeLookup, hb, if_false] at h
      exact List.mem_cons_of_mem _ (ih h)

/-- After cloning the leaf to the fresh id and patching the parent's child
pointer, the descent for the same key lands on a leaf holding the clone's
entries: unpatched internal nodes on the path are untouched, and the patched
parent redirects the choice to the fresh block. -/
theorem descend_into_clone {store : store_t} {k : key_t}
    {pid freshId : block_id_t} {ch : List (key_t × block_id_t)}
    (es' : List (key_t × value_t))
    (hpid : storeLookup store pid = some (node.internal ch))
    (hfresh : storeLookup store freshId = none)
    (hwf : ∀ p ∈ store, nodeWF p.2 = true) :
    ∀ (fuel : Nat) (cur : block_id_t) (par : Option block_id_t)
      (l : block_id_t) (es : List (key_t × value_t)),
      descendCore store k fuel cur par = some (l, some pid, es) →
      (∃ ch0, storeLookup store cur = some (node.internal ch0)) →
      ∃ lf p', descendCore
          (storeWrite (storeWrite store freshId (node.leaf es'))
            pid (node.internal (patchChild ch k freshId)))
          k fuel cur par = some (lf, p', es') := by
  have hpidfresh : pid ≠ freshId := by
    intro hcontra
    rw [hcontra] at hpid
    rw [hfresh] at hpid
    exact Option.noConfusion hpid
  have hchne : ch ≠ [] := by
    have h2 := hwf _ (storeLookup_mem hpid)
    simp only [nodeWF] at h2
    exact of_decide_eq_true h2
  intro fuel
  induction fuel with
  | zero => intro cur par l es h hint; simp [descendCore] at h
  | succ n ih =>
    intro cur par l es h hint
    obtain ⟨ch0, hcur⟩ := hint
    simp only [descendCore] at h
    split at h
    next es0 heq =>
      rw [hcur] at heq
      exact node.noConfusion (by injection heq)
    next ch1 heq =>
      by_cases hcp : cur = pid
      · subst hcp
        cases n with
        | zero => simp [descendCore] at h
        | succ m =>
          refine ⟨freshId, some cur, ?_⟩
          have hcc := chooseChild_patchChild ch k freshId hchne
          simp [descendCore, storeWrite, storeLookup, hpidfresh, hcc]
      · have hcurfresh : cur ≠ freshId := by
          intro hcontra
          rw [hcontra] at heq
          rw [hfresh] at heq
          exact Option.noConfusion heq
        have hnext : ∃ ch2,
            storeLookup store (chooseChild ch1 k) = some (node.internal ch2) := by
          cases n with
          | zero => simp [descendCore] at h
          | succ m =>
            simp only [descendCore] at h
            split at h
            next es1 heq1 =>
              simp only [Option.some.injEq, Prod.mk.injEq] at h
              obtain ⟨-, h2, -⟩ := h
              exact absurd h2 hcp
            next ch2 heq1 => exact ⟨ch2, heq1⟩
            next heq1 => exact absurd h (by simp)
        obtain ⟨lf, p', hres⟩ := ih _ _ _ _ h hnext
        refine ⟨lf, p', ?_⟩
        have hne1 : pid ≠ cur := fun hx => hcp hx.symm
        have hne2 : freshId ≠ cur := fun hx => hcurfresh hx.symm
        have hlk2 : storeLookup
            (storeWrite (storeWrite store freshId (node.leaf es'))
              pid (node.internal (patchChild ch k freshId))) cur =
            some (node.internal ch1) := by
          simp [storeWrite, storeLookup, hne1, hne2, heq]
        simp only [descendCore]
        rw [hlk2]
        exact hres
    next heq => exact absurd h (by simp)

/-- Folding the edit events over the scope step only rewrites the exposed
value, by the folded edits. -/
theorem valueTxnStep_fold_edits (k : key_t) (loc : keyvalue_location_t value_t)
    (mustClone : block_id_t → Bool) (freshId : block_id_t)
    (tstamp : repli_timestamp_t) :
    ∀ (edits : List txnEdit) (st : value_txn_run_t),
      (edits.map scopeEvent.editValue).foldl
          (valueTxnStep k loc mustClone freshId tstamp) st =
        { st with txn_value := edits.foldl applyEdit st.txn_value } := by
  intro edits
  induction edits with
  | nil => intro st; simp
  | cons e es ih =>
    intro st
    simp only [List.map_cons, List.foldl_cons]
    rw [ih]
    rfl

/-! ### Characterizations of change application -/

/-- Change application without cloning rewrites the leaf in place. -/
theorem apply_keyvalue_change_no_clone {store : store_t} {root : block_id_t}
    {loc : keyvalue_location_t value_t} {k : key_t}
    {mustClone : block_id_t → Bool} {freshId oldId : block_id_t}
    {es : List (key_t × value_t)} {tstamp2 : repli_timestamp_t}
    (hb : loc.buf.held = some oldId)
    (hleaf : storeLookup store oldId = some (node.leaf es))
    (hclone : mustClone oldId = false) :
    apply_keyvalue_change store root loc k mustClone freshId tstamp2 =
      ⟨storeWrite store oldId (node.leaf (finalEntries loc.value es k)),
        root⟩ := by
  unfold apply_keyvalue_change
  rw [hb]
  simp only
  rw [hleaf]
  simp [hclone]

/-- Change application with cloning, when the leaf is not the root: the
mutated entries go to the fresh clone and the parent's children are patched. -/
theorem apply_keyvalue_change_clone_parent {store : store_t}
    {root : block_id_t} {loc : keyvalue_location_t value_t} {k : key_t}
    {mustClone : block_id_t → Bool} {freshId oldId pid : block_id_t}
    {es : List (key_t × value_t)} {ch : List (key_t × block_id_t)}
    {tstamp2 : repli_timestamp_t}
    (hb : loc.buf.held = some oldId)
    (hlb : loc.last_buf.held = some pid)
    (hleaf : storeLookup store oldId = some (node.leaf es))
    (hclone : mustClone oldId = true)
    (hpf : freshId ≠ pid)
    (hpid : storeLookup store pid = some (node.internal ch)) :
    apply_keyvalue_change store root loc k mustClone freshId tstamp2 =
      ⟨storeWrite (storeWrite store freshId
            (node.leaf (finalEntries loc.value es k)))
          pid (node.internal (patchChild ch k freshId)), root⟩ := by
  unfold apply_keyvalue_change
  rw [hb]
  simp only
  rw [hleaf]
  simp only [hclone, if_true]
  rw [hlb]
  simp only [storeWrite, storeLookup, hpf, if_false]
  rw [hpid]

/-- Change application with cloning, when the leaf is the root (`last_buf`
empty): the mutated entries go to the fresh clone and the superblock's root
id becomes the clone's id. -/
theorem apply_keyvalue_change_clone_root {store : store_t}
    {root : block_id_t} {loc : keyvalue_location_t value_t} {k : key_t}
    {mustClone : block_id_t → Bool} {freshId oldId : block_id_t}
    {es : List (key_t × value_t)} {tstamp2 : repli_timestamp_t}
    (hb : loc.buf.held = some oldId)
    (hlb : loc.last_buf.held = none)
    (hleaf : storeLookup store oldId = some (node.leaf es))
    (hclone : mustClone oldId = true) :
    apply_keyvalue_change store root loc k mustClone freshId tstamp2 =
      ⟨storeWrite store freshId (node.leaf (finalEntries loc.value es k)),
        freshId⟩ := by
  unfold apply_keyvalue_change
  rw [hb]
  simp only
  rw [hleaf]
  simp only [hclone, if_true]
  rw [hlb]

/-! ### The claims -/

/-- Claim C1: a `value_txn_t` constructed after a write-mode resolution,
edited in any way (mutate, replace, or clear the exposed value), and
destroyed, invokes change application (`apply_keyvalue_change`) on the final
state of the value exactly once, regardless of which exit path destroys it
(normal completion, early return, or error unwinding) — never zero times and
never twice. -/
theorem value_txn_applies_exactly_once (store : store_t) (root : block_id_t)
    (loc : keyvalue_location_t value_t) (k : key_t)
    (mustClone : block_id_t → Bool) (freshId : block_id_t)
    (tstamp : repli_timestamp_t) (body : List scopeAction) :
    (runValueTxnScope store root loc k mustClone freshId tstamp body).applyCount
        = 1 ∧
    (runValueTxnScope store root loc k mustClone freshId tstamp body).result =
      apply_keyvalue_change store root
        { loc with value := (performedEdits body).foldl applyEdit loc.value }
        k mustClone freshId tstamp := by
  unfold runValueTxnScope valueTxnScopeEvents
  simp only [List.foldl_cons, List.foldl_append]
  rw [show valueTxnStep k loc mustClone freshId tstamp
        { txn_value := loc.value, applyCount := 0,
          result := ⟨store, root⟩ } scopeEvent.constructTxn =
      { txn_value := loc.value, applyCount := 0, result := ⟨store, root⟩ }
    from rfl]
  rw [valueTxnStep_fold_edits]
  exact ⟨rfl, rfl⟩

/-- Claim C2: every `keyvalue_location_t` produced by
`find_keyvalue_location_for_read` or `find_keyvalue_location_for_write`
satisfies: if `there_originally_was_value` is true then `value` holds a
present, valid copy of the key's prior value as stored in the leaf the
location points at; if it is false, the value is absent. -/
theorem keyvalue_location_flag_iff_value (store : store_t) (fuel : Nat)
    (root : block_id_t) (k : key_t) (tstamp : repli_timestamp_t)
    (loc : keyvalue_location_t value_t)
    (h : find_keyvalue_location_for_read store fuel root k = some loc ∨
         find_keyvalue_location_for_write store fuel root k tstamp = some loc) :
    (loc.there_originally_was_value = true →
      ∃ l es v, loc.buf.held = some l ∧
        storeLookup store l = some (node.leaf es) ∧
        lookupEntry es k = some v ∧ loc.value = some v) ∧
    (loc.there_originally_was_value = false → loc.value = none) := by
  obtain hcase | hcase := h
  · unfold find_keyvalue_location_for_read at hcase
    obtain ⟨r, hr, hloc⟩ := Option.map_eq_some'.mp hcase
    subst hloc
    refine ⟨?_, ?_⟩
    · intro hflag
      simp only at hflag
      obtain ⟨v, hv⟩ := Option.isSome_iff_exists.mp hflag
      exact ⟨r.1, r.2.2, v, rfl, descend_leaf hr, hv, by simpa using hv⟩
    · intro hflag
      simp only at hflag ⊢
      cases hlk : lookupEntry r.2.2 k with
      | none => rfl
      | some v => rw [hlk] at hflag; simp at hflag
  · unfold find_keyvalue_location_for_write at hcase
    obtain ⟨r, hr, hloc⟩ := Option.map_eq_some'.mp hcase
    subst hloc
    refine ⟨?_, ?_⟩
    · intro hflag
      simp only at hflag
      obtain ⟨v, hv⟩ := Option.isSome_iff_exists.mp hflag
      exact ⟨r.1, r.2.2, v, rfl, descend_leaf hr, hv, by simpa using hv⟩
    · intro hflag
      simp only at hflag ⊢
      cases hlk : lookupEntry r.2.2 k with
      | none => rfl
      | some v => rw [hlk] at hflag; simp at hflag

/-- The location resolved in `demoStore` for key 5 in read mode. -/
def demoLocRead : keyvalue_location_t value_t :=
  { last_buf := buf_lock_t.empty
    buf := ⟨some 2⟩
    there_originally_was_value := true
    value := some [7, 7] }

/-- Witness for C2: the invariant, instantiated at the concrete resolution of
key 5 in `demoStore`. -/
theorem keyvalue_location_flag_iff_value_witness :
    (demoLocRead.there_originally_was_value = true →
      ∃ l es v, demoLocRead.buf.held = some l ∧
        storeLookup demoStore l = some (node.leaf es) ∧
        lookupEntry es 5 = some v ∧ demoLocRead.value = some v) ∧
    (demoLocRead.there_originally_was_value = false →
      demoLocRead.value = none) :=
  keyvalue_location_flag_iff_value demoStore 4 1 5 0 demoLocRead
    (Or.inl (by decide))

/-- Claim C3: during any descent, at every state after the first child lock
is acquired and before the last lock is released, the number of tree-node
block locks held is 1 or 2 — never 0 and never more than 2 — and every
release in the trace immediately follows the acquisition of the child's
lock (a child's lock is acquired before its parent's lock is released). -/
theorem descent_lock_coupling (store : store_t) (k : key_t) (fuel : Nat)
    (root : block_id_t) :
    (∀ p, p ≠ [] → p <+: descentTrace store k fuel root →
      1 ≤ (heldAfter p).length ∧ (heldAfter p).length ≤ 2) ∧
    relFollowsAcq none (descentTrace store k fuel root) = true := by
  constructor
  · intro p hne hp
    rw [descentTrace] at hp
    cases p with
    | nil => exact absurd rfl hne
    | cons e p1 =>
      obtain ⟨rfl, hp1⟩ := List.cons_prefix_cons.mp hp
      simpa [heldAfter, heldAfterFrom] using
        heldAfterFrom_descentEvents fuel root p1 hp1
  · rw [descentTrace]
    simp only [relFollowsAcq]
    exact relFollowsAcq_descentEvents fuel root (some (.acq root))

/-- Witness for C3: the lock-count bound at the concrete one-event prefix of
the descent for key 5 in `demoStore`, plus the acquire-before-release check
of the full concrete trace. -/
theorem descent_lock_coupling_witness :
    (1 ≤ (heldAfter [lockEvent.acq 1]).length ∧
      (heldAfter [lockEvent.acq 1]).length ≤ 2) ∧
    relFollowsAcq none (descentTrace demoStore 5 4 1) = true :=
  ⟨(descent_lock_coupling demoStore 5 4 1).1 [lockEvent.acq 1] (by decide)
      ⟨descentEvents demoStore 5 4 1, rfl⟩,
   (descent_lock_coupling demoStore 5 4 1).2⟩

/-- Claim C4: applying value `V` to key `k` via a write-mode resolution
followed by `apply_keyvalue_change` — for any copy-on-write predicate, so
whether the cache mutates the leaf in place or clones it (at the root or
below a parent) — then (with no intervening mutation) resolving `k` via
`find_keyvalue_location_for_read`, yields `there_originally_was_value = true`
and a value copy equal byte-for-byte to `V`.  The hypotheses state that the
clone's block id is fresh and that every internal node has children. -/
theorem apply_then_read_round_trip (store : store_t) (fuel : Nat)
    (root : block_id_t) (k : key_t) (V : value_t)
    (tstamp tstamp2 : repli_timestamp_t) (mustClone : block_id_t → Bool)
    (freshId : block_id_t) (loc : keyvalue_location_t value_t)
    (hw : find_keyvalue_location_for_write store fuel root k tstamp
        = some loc)
    (hfresh : storeLookup store freshId = none)
    (hwf : ∀ p ∈ store, nodeWF p.2 = true) :
    ∃ loc',
      find_keyvalue_location_for_read
          (apply_keyvalue_change store root { loc with value := some V } k
            mustClone freshId tstamp2).store
          fuel
          (apply_keyvalue_change store root { loc with value := some V } k
            mustClone freshId tstamp2).root
          k = some loc' ∧
        loc'.there_originally_was_value = true ∧ loc'.value = some V := by
  unfold find_keyvalue_location_for_write at hw
  obtain ⟨r, hr, hloc⟩ := Option.map_eq_some'.mp hw
  obtain ⟨l, pr, es⟩ := r
  subst hloc
  have hleaf := descend_leaf hr
  cases hmc : mustClone l with
  | false =>
    have happly : apply_keyvalue_change store root
        { last_buf := (⟨pr⟩ : buf_lock_t), buf := ⟨some l⟩,
          there_originally_was_value := (lookupEntry es k).isSome,
          value := some V } k mustClone freshId tstamp2 =
        ⟨storeWrite store l (node.leaf (insertEntry es k V)), root⟩ :=
      apply_keyvalue_change_no_clone rfl hleaf hmc
    have hupd : descendCore
        (storeWrite store l (node.leaf (insertEntry es k V)))
        k fuel root none = some (l, pr, insertEntry es k V) :=
      descend_update hr
    refine ⟨{ last_buf := buf_lock_t.empty, buf := ⟨some l⟩,
              there_originally_was_value := true, value := some V },
      ?_, rfl, rfl⟩
    rw [happly]
    unfold find_keyvalue_location_for_read
    rw [hupd]
    simp [lookupEntry_insertEntry]
  | true =>
    cases pr with
    | none =>
      have happly : apply_keyvalue_change store root
          { last_buf := (⟨none⟩ : buf_lock_t), buf := ⟨some l⟩,
            there_originally_was_value := (lookupEntry es k).isSome,
            value := some V } k mustClone freshId tstamp2 =
          ⟨storeWrite store freshId (node.leaf (insertEntry es k V)),
            freshId⟩ :=
        apply_keyvalue_change_clone_root rfl rfl hleaf hmc
      cases fuel with
      | zero => simp [descendCore] at hr
      | succ m =>
        have hlk : descendCore
            (storeWrite store freshId (node.leaf (insertEntry es k V)))
            k (m + 1) freshId none =
            some (freshId, none, insertEntry es k V) := by
          simp [descendCore, storeWrite, storeLookup]
        refine ⟨{ last_buf := buf_lock_t.empty, buf := ⟨some freshId⟩,
                  there_originally_was_value := true, value := some V },
          ?_, rfl, rfl⟩
        rw [happly]
        unfold find_keyvalue_location_for_read
        rw [hlk]
        simp [lookupEntry_insertEntry]
    | some pid =>
      obtain ⟨ch, hchP, hchoose⟩ :=
        descend_parent (fun q hq => absurd hq (by simp)) hr
      have hpf : freshId ≠ pid := by
        intro hcontra
        rw [hcontra] at hfresh
        rw [hchP] at hfresh
        exact Option.noConfusion hfresh
      have happly : apply_keyvalue_change store root
          { last_buf := (⟨some pid⟩ : buf_lock_t), buf := ⟨some l⟩,
            there_originally_was_value := (lookupEntry es k).isSome,
            value := some V } k mustClone freshId tstamp2 =
          ⟨storeWrite (storeWrite store freshId
                (node.leaf (insertEntry es k V)))
              pid (node.internal (patchChild ch k freshId)), root⟩ :=
        apply_keyvalue_change_clone_parent rfl rfl hleaf hmc hpf hchP
      obtain ⟨lf, p', hdesc⟩ :=
        descend_into_clone (insertEntry es k V) hchP hfresh hwf fuel root
          none l es hr (descend_root_internal hr)
      refine ⟨{ last_buf := buf_lock_t.empty, buf := ⟨some lf⟩,
                there_originally_was_value := true, value := some V },
        ?_, rfl, rfl⟩
      rw [happly]
      unfold find_keyvalue_location_for_read
      rw [hdesc]
      simp [lookupEntry_insertEntry]

/-- The location resolved in `demoStore` for key 5 in write mode. -/
def demoLocWrite : keyvalue_location_t value_t :=
  { last_buf := ⟨some 1⟩
    buf := ⟨some 2⟩
    there_originally_was_value := true
    value := some [7, 7] }

/-- Witness for C4: the write/read round trip at key 5 of `demoStore`,
writing the value `[1, 2]` with a clone predicate that forces copy-on-write
of the resolved leaf (block 2) into the fresh block 9. -/
theorem apply_then_read_round_trip_witness :
    ∃ loc',
      find_keyvalue_location_for_read
          (apply_keyvalue_change demoStore 1
            { demoLocWrite with value := some [1, 2] } 5
            (fun b => b == 2) 9 0).store
          4
          (apply_keyvalue_change demoStore 1
            { demoLocWrite with value := some [1, 2] } 5
            (fun b => b == 2) 9 0).root
          5 = some loc' ∧
        loc'.there_originally_was_value = true ∧ loc'.value = some [1, 2] :=
  apply_then_read_round_trip demoStore 4 1 5 [1, 2] 0 0 (fun b => b == 2) 9
    demoLocWrite (by decide) (by decide) (by decide)

/-- Claim C5: when `apply_keyvalue_change` clones the leaf (copy-on-write),
the parent's child pointer (held via `last_buf`) — or the superblock's root
block id when the leaf was the root — ends up equal to the clone's fresh
block id, and the old leaf's block id is no longer reachable from the root.
The hypotheses state that the clone's id is fresh and that, as in a tree,
the old leaf is referenced only by its parent and only once. -/
theorem cow_pointer_patch (store : store_t) (fuel : Nat) (root : block_id_t)
    (k : key_t) (tstamp tstamp2 : repli_timestamp_t)
    (loc : keyvalue_location_t value_t) (mustClone : block_id_t → Bool)
    (freshId oldId : block_id_t)
    (hw : find_keyvalue_location_for_write store fuel root k tstamp
        = some loc)
    (hbuf : loc.buf.held = some oldId)
    (hclone : mustClone oldId = true)
    (hfresh : storeLookup store freshId = none)
    (honly : ∀ p ∈ store, oldId ∈ childIds p.2 → loc.last_buf.held = some p.1)
    (honce : ∀ p ∈ store, loc.last_buf.held = some p.1 →
      countOcc oldId (childIds p.2) = 1) :
    (∀ pid, loc.last_buf.held = some pid →
      ∃ ch', storeLookup (apply_keyvalue_change store root loc k mustClone
          freshId tstamp2).store pid = some (node.internal ch') ∧
        chooseChild ch' k = freshId) ∧
    (loc.last_buf.held = none →
      (apply_keyvalue_change store root loc k mustClone freshId tstamp2).root
        = freshId) ∧
    (∀ depth,
      reachableb (apply_keyvalue_change store root loc k mustClone freshId
          tstamp2).store oldId depth
        (apply_keyvalue_change store root loc k mustClone freshId
          tstamp2).root = false) := by
  unfold find_keyvalue_location_for_write at hw
  obtain ⟨r, hr, hloc⟩ := Option.map_eq_some'.mp hw
  obtain ⟨l, pr, es⟩ := r
  subst hloc
  have hbuf' : some l = some oldId := hbuf
  obtain rfl : l = oldId := by injection hbuf'
  have hleaf := descend_leaf hr
  have hfne : freshId ≠ l := by
    intro hcontra
    rw [hcontra] at hfresh
    rw [hleaf] at hfresh
    exact Option.noConfusion hfresh
  cases pr with
  | some pid =>
    obtain ⟨ch, hchP, hchoose⟩ :=
      descend_parent (fun q hq => absurd hq (by simp)) hr
    have hpf : freshId ≠ pid := by
      intro hcontra
      rw [hcontra] at hfresh
      rw [hchP] at hfresh
      exact Option.noConfusion hfresh
    have hcount : countOcc l (ch.map Prod.snd) = 1 := by
      have hmem := storeLookup_mem hchP
      have hc := honce _ hmem rfl
      simpa [childIds] using hc
    obtain ⟨hc1, hc2⟩ := patchChild_spec hfne ch k hcount hchoose
    have happly : apply_keyvalue_change store root
        { last_buf := (⟨some pid⟩ : buf_lock_t), buf := ⟨some l⟩,
          there_originally_was_value := (lookupEntry es k).isSome,
          value := lookupEntry es k } k mustClone freshId tstamp2 =
        ⟨storeWrite (storeWrite store freshId
              (node.leaf (finalEntries (lookupEntry es k) es k)))
            pid (node.internal (patchChild ch k freshId)), root⟩ :=
      apply_keyvalue_change_clone_parent rfl rfl hleaf hclone hpf hchP
    rw [happly]
    have hrootne : root ≠ l := by
      obtain ⟨ch0, hroot⟩ := descend_root_internal hr
      intro hcontra
      rw [hcontra] at hroot
      rw [hleaf] at hroot
      exact node.noConfusion (by injection hroot)
    have hnoref : ∀ b n,
        storeLookup (storeWrite (storeWrite store freshId
            (node.leaf (finalEntries (lookupEntry es k) es k)))
          pid (node.internal (patchChild ch k freshId))) b = some n →
        l ∉ childIds n := by
      intro b n hb
      simp only [storeWrite, storeLookup] at hb
      by_cases hb1 : pid = b
      · rw [if_pos hb1] at hb
        obtain rfl : node.internal (patchChild ch k freshId) = n := by
          injection hb
        simpa [childIds] using hc2
      · rw [if_neg hb1] at hb
        by_cases hb2 : freshId = b
        · rw [if_pos hb2] at hb
          obtain rfl : node.leaf (finalEntries (lookupEntry es k) es k) = n := by
            injection hb
          simp [childIds]
        · rw [if_neg hb2] at hb
          intro hmem
          have hlast := honly _ (storeLookup_mem hb) hmem
          have : some pid = some b := hlast
          exact hb1 (by injection this)
    refine ⟨?_, ?_, ?_⟩
    · intro pid' hpid'
      have : some pid = some pid' := hpid'
      obtain rfl : pid = pid' := by injection this
      exact ⟨patchChild ch k freshId, by simp [storeWrite, storeLookup], hc1⟩
    · intro hcontra
      exact Option.noConfusion (show some pid = none from hcontra)
    · intro depth
      exact noref_unreachable hnoref depth root hrootne
  | none =>
    have happly : apply_keyvalue_change store root
        { last_buf := (⟨none⟩ : buf_lock_t), buf := ⟨some l⟩,
          there_originally_was_value := (lookupEntry es k).isSome,
          value := lookupEntry es k } k mustClone freshId tstamp2 =
        ⟨storeWrite store freshId
            (node.leaf (finalEntries (lookupEntry es k) es k)), freshId⟩ :=
      apply_keyvalue_change_clone_root rfl rfl hleaf hclone
    rw [happly]
    have hnoref : ∀ b n,
        storeLookup (storeWrite store freshId
            (node.leaf (finalEntries (lookupEntry es k) es k))) b = some n →
        l ∉ childIds n := by
      intro b n hb
      simp only [storeWrite, storeLookup] at hb
      by_cases hb2 : freshId = b
      · rw [if_pos hb2] at hb
        obtain rfl : node.leaf (finalEntries (lookupEntry es k) es k) = n := by
          injection hb
        simp [childIds]
      · rw [if_neg hb2] at hb
        intro hmem
        have hlast := honly _ (storeLookup_mem hb) hmem
        exact Option.noConfusion (show (none : Option block_id_t) = some b from hlast)
    refine ⟨?_, ?_, ?_⟩
    · intro pid' hpid'
      exact absurd (show (none : Option block_id_t) = some pid' from hpid')
        (by simp)
    · intro _
      rfl
    · intro depth
      exact noref_unreachable hnoref depth freshId hfne

/-- Witness for C5: cloning leaf 2 of `demoStore` into the fresh block 9 on
a write to key 5; the parent (block 1) points at 9 afterwards, and block 2 is
unreachable from the root. -/
theorem cow_pointer_patch_witness :
    (∀ pid, demoLocWrite.last_buf.held = some pid →
      ∃ ch', storeLookup (apply_keyvalue_change demoStore 1 demoLocWrite 5
          (fun b => b == 2) 9 0).store pid = some (node.internal ch') ∧
        chooseChild ch' 5 = 9) ∧
    (demoLocWrite.last_buf.held = none →
      (apply_keyvalue_change demoStore 1 demoLocWrite 5
        (fun b => b == 2) 9 0).root = 9) ∧
    (∀ depth,
      reachableb (apply_keyvalue_change demoStore 1 demoLocWrite 5
          (fun b => b == 2) 9 0).store 2 depth
        (apply_keyvalue_change demoStore 1 demoLocWrite 5
          (fun b => b == 2) 9 0).root = false) :=
  cow_pointer_patch demoStore 4 1 5 0 0 demoLocWrite (fun b => b == 2) 9 2
    (by decide) rfl rfl (by decide) (by decide) (by decide)

/-- Claim C6: for both superblock variants, `release()` is idempotent:
calling it with no lock held is a no-op, and calling it twice leaves the
superblock in the same state as calling it once. -/
theorem superblock_release_idempotent (r : real_superblock_t)
    (v : virtual_superblock_t) :
    r.release.release = r.release ∧
    (r.sb_buf_ = buf_lock_t.empty → r.release = r) ∧
    v.release.release = v.release ∧
    v.release = v := by
  refine ⟨rfl, ?_, rfl, rfl⟩
  intro h
  cases r
  simp only [real_superblock_t.release] at *
  rw [h]

/-- Witness for C6 at a concrete unlocked real superblock and a concrete
virtual superblock. -/
theorem superblock_release_idempotent_witness :
    (real_superblock_t.mk buf_lock_t.empty).release =
      real_superblock_t.mk buf_lock_t.empty :=
  (superblock_release_idempotent (real_superblock_t.mk buf_lock_t.empty)
    (virtual_superblock_t.mk 5)).2.1 rfl

/-- Claim C7: for every `virtual_superblock_t` and block id `b`, after
`set_root_block_id b` the getter `get_root_block_id` returns `b`. -/
theorem virtual_superblock_set_then_get (sb : virtual_superblock_t)
    (b : block_id_t) :
    (sb.set_root_block_id b).get_root_block_id = b := rfl

/-- Claim C8: for every `virtual_superblock_t` and lock slot passed to
`swap_buf`, after the call the caller's slot holds an empty (unheld) block
lock. -/
theorem virtual_superblock_swap_buf_empties_slot (sb : virtual_superblock_t)
    (swapee : buf_lock_t) :
    (sb.swap_buf swapee).held = none := rfl

/-- Claim C9: every `virtual_superblock_t`, whatever its construction
argument and whatever sequence of `set_root_block_id` calls was applied,
returns `NULL_BLOCK_ID` from `get_delete_queue_block`. -/
theorem virtual_superblock_delete_queue_always_null (arg : Option block_id_t)
    (sets : List block_id_t) :
    (sets.foldl virtual_superblock_t.set_root_block_id
        (virtual_superblock_t.construct arg)).get_delete_queue_block =
      NULL_BLOCK_ID := rfl

/-- Claim C10: a default-constructed `keyvalue_location_t` has
`there_originally_was_value = false` and an absent value, so it satisfies the
flag-iff-value-present invariant from the moment of construction. -/
theorem keyvalue_location_default_invariant (Value : Type) :
    (keyvalue_location_t.construct Value).there_originally_was_value = false ∧
    (keyvalue_location_t.construct Value).value = none ∧
    ((keyvalue_location_t.construct Value).there_originally_was_value =
      (keyvalue_location_t.construct Value).value.isSome) :=
  ⟨rfl, rfl, rfl⟩

end BtreeOps
